import Mathlib

/-!
Verification of the Flexutils-Tensorflow-Toolkit network code
(src/tensorflow_toolkit/networks/reconsiren.py and het_siren.py).

Shallow embedding over exact rationals: tensorflow float tensors are
modelled as functions into ℚ, batched tensors as functions from an
abstract batch-index type, and fallible float results (NaN) as Option.
External library routines with transcendental content (tf.exp, acos,
scipy's normal cdf, numpy's sqrt) are passed as explicit function
parameters; the repository's own arithmetic around them is embedded
literally.
-/

namespace FlexuSpec

/-! ## Multi-candidate winner-take-all selection (reconsiren.AutoEncoder)

A candidate head produces, for each batch element, a reconstruction loss
and a payload (rotation matrix, shifts, predicted image).  The batch is
an abstract index type `B`; the payload an abstract type `P`, selected
whole per element exactly as the broadcast tf.where does. -/

/-- One candidate of the multi-head pose search: per-element loss and
per-element payload (the rotation/shift/image kept by tf.where). -/
structure CandBatch (B P : Type) where
  loss : B → ℚ
  payload : B → P

/-- One iteration of the winner-take-all loop in
reconsiren.AutoEncoder.predict_step: mask = tf.less_equal(loss_rec,
prev_loss_rec), then tf.where(mask, new, old) on the loss and on each
payload tensor, element-wise in the batch. -/
def winnerStep {B P : Type} (st c : CandBatch B P) : CandBatch B P where
  loss := fun b => if c.loss b ≤ st.loss b then c.loss b else st.loss b
  payload := fun b => if c.loss b ≤ st.loss b then c.payload b else st.payload b

/-- The whole candidate loop of predict_step: prev_loss_rec is
initialized to 10000 * ones and the kept tensors to zeros (`z`), then
winnerStep is folded over the K candidates in order. -/
def winnerSelect {B P : Type} (z : P) (cands : List (CandBatch B P)) : CandBatch B P :=
  cands.foldl winnerStep ⟨fun _ => 10000, fun _ => z⟩

/-- The loss reduction of reconsiren.AutoEncoder.decode_images_with_loss:
prev_loss_rec starts at 10000 * ones and each candidate loss is combined
by loss_rec = tf.reduce_min(tf.stack([loss_rec, prev_loss_rec], -1), -1),
an element-wise minimum. -/
def decodeLossMin {B : Type} (losses : List (B → ℚ)) : B → ℚ :=
  losses.foldl (fun prev l => fun b => min (l b) (prev b)) (fun _ => 10000)

/-! ## Negative-density penalty (het_siren.AutoEncoder.train_step)

delta_het = decode_het(het) + values is a batch of corrected densities.
tf.boolean_mask(delta_het, delta_het < 0) flattens the batch and keeps
the strictly negative entries; tf.reduce_mean of an empty selection is
NaN in tensorflow, modelled as `none`. -/

/-- tf.boolean_mask with mask tf.less(x, 0) over the flattened batch. -/
def negativeEntries (batch : List (List ℚ)) : List ℚ :=
  (batch.flatten).filter (fun v => v < 0)

/-- tf.reduce_mean over a 1-D tensor; the empty tensor yields NaN
(modelled as none), otherwise the exact mean. -/
def tfReduceMean (l : List ℚ) : Option ℚ :=
  if l.isEmpty then none else some (l.sum / (l.length : ℚ))

/-- neg_loss_het of het_siren.AutoEncoder.train_step (lines 712-717):
delta_neg = boolean_mask(delta_het, delta_het < 0);
delta_neg_size = shape(delta_neg)[-1];
neg_loss_het = l1_lambda * reduce_mean(abs(delta_neg)) / delta_neg_size.
NaN (none) propagates through the arithmetic. -/
def negLossHet (l1_lambda : ℚ) (delta_het : List (List ℚ)) : Option ℚ :=
  let delta_neg := negativeEntries delta_het
  match tfReduceMean (delta_neg.map (fun v => |v|)) with
  | none => none
  | some m => some (l1_lambda * m / (delta_neg.length : ℚ))

/-! ## Fourier-domain binary reconstruction mask (het_siren train/test step) -/

/-- tf.math.divide_no_nan: the quotient, with division by zero replaced
by zero instead of NaN/Inf. -/
def divideNoNan (a b : ℚ) : ℚ := if b = 0 then 0 else a / b

/-- One entry of the reconstruction mask computed before the loss:
mask_imgs = tf.abs(mask_imgs); mask_imgs = divide_no_nan(mask_imgs, mask_imgs),
applied element-wise to the resized analytic mask magnitude. -/
def maskEntry (m : ℚ) : ℚ := divideNoNan |m| |m|

/-! ## Differentiable scatter projection (reconsiren decode/predict)

Points carry a continuous 2-D projected position and a density value.
bpos_round = tf.round(ro) (round half to even), num = sum of squared
rounding residuals, weight = tf.exp(-num / (2 * 1^2)), and the weighted
value is tensor_scatter_nd_add-ed into a zero image at the rounded
position.  tf.exp is the external parameter `E`. -/

/-- tf.round on an exact rational: round half to even. -/
def roundTF (q : ℚ) : ℤ :=
  let f := ⌊q⌋
  if q - f < 1/2 then f
  else if 1/2 < q - f then f + 1
  else if f % 2 = 0 then f else f + 1

/-- Squared distance between a projected position and its rounding
target: num = tf.reduce_sum((bpos_round - ro)^2, axis=-1). -/
def roundResidualSq (pos : ℚ × ℚ) : ℚ :=
  ((roundTF pos.1 : ℚ) - pos.1) ^ 2 + ((roundTF pos.2 : ℚ) - pos.2) ^ 2

/-- The sub-pixel weight tf.exp(-num / (2. * 1. ** 2.)) with sigma = 1. -/
def scatterWeight (E : ℚ → ℚ) (pos : ℚ × ℚ) : ℚ :=
  E (-(roundResidualSq pos) / 2)

/-- tensor_scatter_nd_add of the weighted point values into a
zero-initialized image grid, one point after another; colliding points
accumulate. -/
def scatterPoints (E : ℚ → ℚ) (pts : List ((ℚ × ℚ) × ℚ)) : ℤ × ℤ → ℚ :=
  pts.foldl
    (fun img pt => fun q =>
      if q = (roundTF pt.1.1, roundTF pt.1.2) then img q + pt.2 * scatterWeight E pt.1
      else img q)
    (fun _ => 0)

/-! ## predict_step mode dispatch (het_siren.AutoEncoder.predict_step) -/

/-- The tail of het_siren.AutoEncoder.predict_step: dispatch on
predict_mode, with encoder and decoder as explicit functions; an
unrecognized mode raises ValueError to the caller. -/
def predictStepDispatch {α β γ : Type} (encoder : α → β) (decoder : β → γ)
    (mode : String) (inputs : α) : Except String (β ⊕ γ) :=
  if mode = "het" then Except.ok (Sum.inl (encoder inputs))
  else if mode = "particles" then Except.ok (Sum.inr (decoder (encoder inputs)))
  else Except.error "Prediction mode not understood!"

/-! ## safe_acos and the uniform-distribution loss (reconsiren) -/

/-- tf.clip_by_value: min(max(x, lo), hi). -/
def clipByValue (x lo hi : ℚ) : ℚ := min (max x lo) hi

/-- reconsiren.safe_acos: tf.acos of the input clipped to
[-1 + 1e-7, 1 - 1e-7]; tf.acos is the external parameter `ac`. -/
def safeAcos (ac : ℚ → ℚ) (x : ℚ) : ℚ :=
  ac (clipByValue x (-1 + 1/10000000) (1 - 1/10000000))

/-- One repulsion denominator of uniform_distribution_loss: the angular
distance safe_acos(cosine similarity) plus epsilon = 1e-4. -/
def repulsionDenom (ac : ℚ → ℚ) (cosSim : ℚ) : ℚ :=
  safeAcos ac cosSim + 1/10000

/-! ## Blur filter bank (reconsiren.gaussian_kernel / create_blur_filters)

scipy.stats.norm.cdf and numpy sqrt are the external parameters `cdf`
and `sq`; everything else (linspace, diff, outer product, unit-sum
normalization) is embedded from the source. -/

/-- numpy.linspace(a, b, n): n evenly spaced samples, endpoints
included; one sample gives [a]. -/
def linspace (a b : ℚ) (n : ℕ) : List ℚ :=
  if n = 0 then []
  else if n = 1 then [a]
  else (List.range n).map (fun (i : ℕ) => a + (i : ℚ) * (b - a) / ((n : ℚ) - 1))

/-- numpy.diff: consecutive differences, one entry shorter. -/
def diffList (l : List ℚ) : List ℚ :=
  List.zipWith (fun a b => b - a) l l.tail

/-- kern1d of reconsiren.gaussian_kernel: interval = (2*std + 1)/size,
x = linspace(-std - interval/2, std + interval/2, size),
kern1d = diff(cdf(x)). -/
def gaussKern1d (cdf : ℚ → ℚ) (size : ℕ) (std : ℚ) : List ℚ :=
  let interval := (2 * std + 1) / (size : ℚ)
  diffList ((linspace (-std - interval / 2) (std + interval / 2) size).map cdf)

/-- kernel_raw = sqrt(outer(kern1d, kern1d)) of gaussian_kernel. -/
def gaussKernelRaw (cdf sq : ℚ → ℚ) (size : ℕ) (std : ℚ) : List (List ℚ) :=
  let k := gaussKern1d cdf size std
  k.map (fun a => k.map (fun b => sq (a * b)))

/-- Sum of all entries of a 2-D kernel. -/
def matSum (m : List (List ℚ)) : ℚ := (m.map List.sum).sum

/-- gaussian_kernel: kernel = kernel_raw / kernel_raw.sum(). -/
def gaussKernel (cdf sq : ℚ → ℚ) (size : ℕ) (std : ℚ) : List (List ℚ) :=
  (gaussKernelRaw cdf sq size std).map
    (fun row => row.map (fun v => v / matSum (gaussKernelRaw cdf sq size std)))

/-- create_blur_filters: one Gaussian kernel per standard deviation in
np.linspace(0.1, max_std, num_filters). -/
def createBlurFilters (cdf sq : ℚ → ℚ) (num_filters : ℕ) (max_std : ℚ)
    (filter_size : ℕ) : List (List (List ℚ)) :=
  (linspace (1/10) max_std num_filters).map (gaussKernel cdf sq filter_size)

/-! ## Decoder.eval_volume_het (het_siren, lines 578-610)

The per-sample volume: values assigned at the integer indices of the
coordinate grid, optionally filtered (filterVol, kept as the explicit
function parameter `filt` since the claimed bookkeeping holds for every
filter), then split into its non-negative part with the negative part
saved and re-added when only_pos is False. -/

/-- A dense cubic volume, indexed by integer voxel positions. -/
def Grid3 : Type := ℤ × ℤ × ℤ → ℚ

/-- volume_grids[idx, o_z, o_y, o_x] = values[idx]: numpy fancy
assignment of the value list at the index list (later indices win). -/
def assignAt (indices : List (ℤ × ℤ × ℤ)) (values : List ℚ) : Grid3 :=
  (indices.zip values).foldl
    (fun g p => fun q => if q = p.1 then p.2 else g q)
    (fun _ => 0)

/-- The per-sample body of het_siren.Decoder.eval_volume_het: scatter the
values, filter when `filter` is set, zero out the negative part, and add
the saved negative part back when only_pos is False. -/
def evalVolumeHetSample (filt : Grid3 → Grid3) (indices : List (ℤ × ℤ × ℤ))
    (values : List ℚ) (filter only_pos : Bool) : Grid3 :=
  let g0 := assignAt indices values
  let g1 := if filter then filt g0 else g0
  let neg_part : Grid3 := fun q => g1 q * (if g1 q < 0 then 1 else 0)
  let pos : Grid3 := fun q => g1 q * (if 0 ≤ g1 q then 1 else 0)
  if only_pos then pos else fun q => pos q + neg_part q

/-! ## AutoEncoder.eval_volume_het (het_siren, lines 902-935)

The generator's coordinate grid is a mutable field; the allCoords branch
swaps in each grid of getAllCoordsMask and restores the previous grid at
the end, the other branch re-assigns the current grid.  Volumes are an
abstract commutative payload accumulated with `addV`. -/

/-- The generator state visible to eval_volume_het: its coordinate grid
and its step attribute. -/
structure GenState (C : Type) where
  coords : C
  step : ℕ

/-- het_siren.AutoEncoder.eval_volume_het as a state transformer:
returns the accumulated volume and the generator state after the call.
`evalOne` is Decoder.eval_volume_het as a function of the active
coordinate grid (it reads, never writes, generator.coords); `volExists`
is whether the optional reference volume file is present. -/
def evalVolumeHetAE {C V : Type} (addV : V → V → V) (zeroV : V) (evalOne : C → V)
    (getAllCoordsMask : List C) (allCoords filter only_pos add_to_original volExists : Bool)
    (g : GenState C) : V × GenState C :=
  let branch := allCoords = true ∧ 1 < g.step
  let new_coords := if branch then getAllCoordsMask else [g.coords]
  let _original_volume_read := add_to_original = true ∧ volExists = true
  let res := new_coords.foldl
    (fun (acc : V × GenState C) c =>
      (addV acc.1 (evalOne c), { acc.2 with coords := c }))
    (zeroV, g)
  let _flags_passed_through := (filter, only_pos)
  if branch then (res.1, { res.2 with coords := g.coords }) else res

/-! ## resizeImageFourier (reconsiren lines 41-60, het_siren lines 328-347)

Modelled from the spec: full_fft_pad and full_ifft_pad live in
tensorflow_toolkit.utils, which is not under src/.  Per the spec they
zero-pad in the spatial domain by pad_factor (identity at the
pad_factor = 1 default used at every call site of these files) and apply
the forward/inverse 2-D discrete Fourier transform; the
frequency-centering shift is absorbed into the crop/pad convention.
The DFT is embedded exactly over a field, parameterized by the root of
unity `ω` that the float library realizes as exp(-2*pi*i/n), so that
witnesses stay computable over ℚ. -/

/-- The n x n DFT matrix with entries ω^(j*k). -/
def dftMat (n : ℕ) (ω : ℚ) : Matrix (Fin n) (Fin n) ℚ :=
  Matrix.of fun a b => ω ^ (a.val * b.val)

/-- Forward 2-D DFT (tf.signal.fft2d): sum over both axes against
ω^(j1*k1 + j2*k2), i.e. W * f * W with W the DFT matrix. -/
def dft2 (n : ℕ) (ω : ℚ) (f : Matrix (Fin n) (Fin n) ℚ) : Matrix (Fin n) (Fin n) ℚ :=
  dftMat n ω * f * dftMat n ω

/-- Inverse 2-D DFT (tf.signal.ifft2d): the conjugate transform scaled
by 1/n². -/
def idft2 (n : ℕ) (ω : ℚ) (f : Matrix (Fin n) (Fin n) ℚ) : Matrix (Fin n) (Fin n) ℚ :=
  ((n : ℚ) * (n : ℚ))⁻¹ • (dftMat n ω⁻¹ * f * dftMat n ω⁻¹)

/-- tf.image.resize_with_crop_or_pad: centrally crop or zero-pad an
n x n image to m x m, with the tensorflow floor-offset convention
(offset (m - n) / 2 rounded toward zero in ℤ, which matches the
(m-n)//2 pad offset and the (n-m)//2 crop offset). -/
def cropOrPad (n m : ℕ) (x : Matrix (Fin n) (Fin n) ℚ) : Matrix (Fin m) (Fin m) ℚ :=
  Matrix.of fun i j =>
    if hnm : n ≤ m then
      (if h : (m - n) / 2 ≤ i.val ∧ i.val < (m - n) / 2 + n
          ∧ (m - n) / 2 ≤ j.val ∧ j.val < (m - n) / 2 + n then
        x ⟨i.val - (m - n) / 2, by omega⟩ ⟨j.val - (m - n) / 2, by omega⟩
      else 0)
    else
      x ⟨i.val + (n - m) / 2, by have hi := i.isLt; omega⟩
        ⟨j.val + (n - m) / 2, by have hj := j.isLt; omega⟩

/-- resizeImageFourier at pad_factor = 1: forward transform at the input
size s (with root ωs), crop-or-pad the spectrum to the output size t,
inverse transform at size t (with root ωt), then scale by norm * norm
where norm = pad_out_size / pad_size = t / s. -/
def resizeImageFourierM (s t : ℕ) (ωs ωt : ℚ) (img : Matrix (Fin s) (Fin s) ℚ) :
    Matrix (Fin t) (Fin t) ℚ :=
  (((t : ℚ) / (s : ℚ)) * ((t : ℚ) / (s : ℚ))) • idft2 t ωt (cropOrPad s t (dft2 s ωs img))

/-- The normalization factor of resizeImageFourier for general
pad_factor p: (pad_out_size / pad_size)² = ((p*t)/(p*s))². -/
def normFactor (p s t : ℕ) : ℚ := (((p * t : ℕ) : ℚ) / ((p * s : ℕ) : ℚ)) ^ 2

/-- Total image energy: the sum of squared pixel values. -/
def imageEnergy (n : ℕ) (img : Matrix (Fin n) (Fin n) ℚ) : ℚ :=
  ∑ i : Fin n, ∑ j : Fin n, (img i j) ^ 2

/-- ω is an exact model of the principal n-th root of unity used by the
float FFT: ω^n = 1 and no smaller positive power is 1. -/
def IsPrimRoot (n : ℕ) (ω : ℚ) : Prop :=
  ω ^ n = 1 ∧ ∀ d < n, 0 < d → ω ^ d ≠ 1

/-- The 2 x 2 test image with unit energy concentrated in one pixel,
used to exhibit the energy loss of a shrink-then-grow round trip. -/
def imgC3 : Matrix (Fin 2) (Fin 2) ℚ :=
  Matrix.of fun i j => if i = 0 ∧ j = 0 then 1 else 0

/-- A constant 1 x 1 test image for the grow-then-shrink round-trip
witness. -/
def img1 : Matrix (Fin 1) (Fin 1) ℚ := Matrix.of fun _ _ => 5

/-- The concrete candidate list for the winner-take-all counterexample:
a single candidate whose loss 20000 exceeds the 10000 initialization. -/
def cexCands : List (CandBatch (Fin 1) ℚ) :=
  [⟨fun _ => 20000, fun _ => 1⟩]

/-- A two-candidate batch with losses 5 and 3 below the 10000
initialization, for the winner-take-all witness. -/
def witCands : List (CandBatch (Fin 1) ℚ) :=
  [⟨fun _ => 5, fun _ => 7⟩, ⟨fun _ => 3, fun _ => 9⟩]

/-! ## Theorems -/

/-- C4: the Fourier-domain reconstruction mask entry, the element-wise
divide_no_nan of the resized mask magnitude by itself, is 1 where the
magnitude is nonzero and 0 where it is zero; the division-by-zero case
yields 0, never NaN or Inf. -/
theorem C4_fourier_mask_binary (m : ℚ) :
    maskEntry m = if m = 0 then 0 else 1 := by
  by_cases h : m = 0
  · simp [maskEntry, divideNoNan, h]
  · have habs : |m| ≠ 0 := fun h0 => h (abs_eq_zero.mp h0)
    simp [maskEntry, divideNoNan, habs, h, div_self habs]

/-- C6: het_siren.AutoEncoder.predict_step returns the encoder outputs
for predict_mode = "het", the decoder applied to the encoder outputs for
predict_mode = "particles", and raises ValueError to the caller for
every other mode; it never silently falls back to a default. -/
theorem C6_predict_mode_dispatch {α β γ : Type} (encoder : α → β) (decoder : β → γ)
    (mode : String) (inputs : α) :
    (mode = "het" →
      predictStepDispatch encoder decoder mode inputs = Except.ok (Sum.inl (encoder inputs)))
    ∧ (mode = "particles" →
      predictStepDispatch encoder decoder mode inputs
        = Except.ok (Sum.inr (decoder (encoder inputs))))
    ∧ (mode ≠ "het" → mode ≠ "particles" →
      predictStepDispatch encoder decoder mode inputs
        = Except.error "Prediction mode not understood!") := by
  refine ⟨fun h => ?_, fun h => ?_, fun h1 h2 => ?_⟩
  · simp [predictStepDispatch, h]
  · simp [predictStepDispatch, h]
  · simp [predictStepDispatch, h1, h2]

/-- C6 witness: the dispatch evaluated at the two supported modes and at
a concrete unsupported mode. -/
theorem C6_predict_mode_dispatch_witness :
    predictStepDispatch (id : ℚ → ℚ) (id : ℚ → ℚ) "het" 1 = Except.ok (Sum.inl 1)
    ∧ predictStepDispatch (id : ℚ → ℚ) (id : ℚ → ℚ) "particles" 1 = Except.ok (Sum.inr 1)
    ∧ predictStepDispatch (id : ℚ → ℚ) (id : ℚ → ℚ) "spa" 1
        = Except.error "Prediction mode not understood!" :=
  ⟨(C6_predict_mode_dispatch id id "het" 1).1 rfl,
   (C6_predict_mode_dispatch id id "particles" 1).2.1 rfl,
   (C6_predict_mode_dispatch id id "spa" 1).2.2 (by decide) (by decide)⟩

/-- C9: safe_acos is the inverse cosine applied to the input clipped to
the sub-unit range [-1 + 1e-7, 1 - 1e-7]; the clipped value always lies
in that range (hence in the domain of acos, giving a finite result), and
the repulsion denominator of uniform_distribution_loss is strictly
positive whenever acos is non-negative on [-1, 1], so the angular
distances never produce NaN. -/
theorem C9_safe_acos_clips (ac : ℚ → ℚ) (x : ℚ) :
    safeAcos ac x = ac (clipByValue x (-1 + 1/10000000) (1 - 1/10000000))
    ∧ -1 + 1/10000000 ≤ clipByValue x (-1 + 1/10000000) (1 - 1/10000000)
    ∧ clipByValue x (-1 + 1/10000000) (1 - 1/10000000) ≤ 1 - 1/10000000
    ∧ ((∀ y, -1 ≤ y → y ≤ 1 → 0 ≤ ac y) → 0 < repulsionDenom ac x) := by
  have hlo : (-1 + 1/10000000 : ℚ) ≤
      clipByValue x (-1 + 1/10000000) (1 - 1/10000000) := by
    refine le_min (le_max_right _ _) (by norm_num)
  have hhi : clipByValue x (-1 + 1/10000000) (1 - 1/10000000) ≤ 1 - 1/10000000 :=
    min_le_right _ _
  refine ⟨rfl, hlo, hhi, fun hac => ?_⟩
  have h1 : (0 : ℚ) ≤ ac (clipByValue x (-1 + 1/10000000) (1 - 1/10000000)) := by
    refine hac _ (le_trans (by norm_num) hlo) (le_trans hhi (by norm_num))
  have : repulsionDenom ac x
      = ac (clipByValue x (-1 + 1/10000000) (1 - 1/10000000)) + 1/10000 := rfl
  rw [this]
  linarith

/-- C9 witness: the clipping bounds and the positive denominator at a
concrete overshooting input x = 7/3 > 1 with a concrete acos model. -/
theorem C9_safe_acos_clips_witness :
    safeAcos (fun _ => 0) (7/3)
      = (fun _ : ℚ => (0 : ℚ)) (clipByValue (7/3) (-1 + 1/10000000) (1 - 1/10000000))
    ∧ -1 + 1/10000000 ≤ clipByValue (7/3) (-1 + 1/10000000) (1 - 1/10000000)
    ∧ clipByValue (7/3) (-1 + 1/10000000) (1 - 1/10000000) ≤ 1 - 1/10000000
    ∧ 0 < repulsionDenom (fun _ => 0) (7/3) := by
  have h := C9_safe_acos_clips (fun _ => 0) (7/3)
  exact ⟨h.1, h.2.1, h.2.2.1, h.2.2.2 (fun y _ _ => le_refl 0)⟩

/-- C10: in het_siren.Decoder.eval_volume_het with only_pos = False, the
negative part zeroed after the optional filter is added back unchanged,
so the returned volume is exactly the scattered (and, when filter is
set, filtered) base-plus-delta volume with no net thresholding. -/
theorem C10_eval_volume_no_net_threshold (filt : Grid3 → Grid3)
    (indices : List (ℤ × ℤ × ℤ)) (values : List ℚ) (filter : Bool) (q : ℤ × ℤ × ℤ) :
    evalVolumeHetSample filt indices values filter false q
      = (if filter then filt (assignAt indices values) else assignAt indices values) q := by
  unfold evalVolumeHetSample
  set g1 := if filter then filt (assignAt indices values) else assignAt indices values with hg1
  simp only [Bool.false_eq_true, if_false]
  by_cases h : 0 ≤ g1 q
  · have h2 : ¬ g1 q < 0 := not_lt.mpr h
    simp [h, h2]
  · have h2 : g1 q < 0 := not_le.mp h
    simp [h, h2]

/-- C7: het_siren.AutoEncoder.eval_volume_het leaves the generator's
coordinate grid with the same value it had before the call, for every
combination of the allCoords, filter, only_pos and add_to_original
flags: the swapped-in all-coordinates grids are always restored. -/
theorem C7_coords_restored {C V : Type} (addV : V → V → V) (zeroV : V) (evalOne : C → V)
    (getAllCoordsMask : List C)
    (allCoords filter only_pos add_to_original volExists : Bool) (g : GenState C) :
    (evalVolumeHetAE addV zeroV evalOne getAllCoordsMask
      allCoords filter only_pos add_to_original volExists g).2.coords = g.coords := by
  unfold evalVolumeHetAE
  by_cases hb : allCoords = true ∧ 1 < g.step
  · simp [hb]
  · simp [hb, List.foldl]

/-- C2: evaluation of the train_step negative-density penalty at a batch
whose corrected densities are all non-negative: the boolean mask selects
nothing, tf.reduce_mean of the empty selection is NaN (none), and the
penalty is NaN rather than the 0 the specification requires. -/
theorem C2_neg_loss_nan_on_nonneg :
    (∀ v ∈ ([[(1 : ℚ), 2], [0, 3]] : List (List ℚ)).flatten, 0 ≤ v)
    ∧ negLossHet (1/2) [[(1 : ℚ), 2], [0, 3]] = none
    ∧ negLossHet (1/2) [[(1 : ℚ), 2], [0, 3]] ≠ some 0 := by
  refine ⟨by decide, rfl, by decide⟩

/-- Each rounding of an exact integer position is that integer. -/
theorem roundTF_intCast (a : ℤ) : roundTF (a : ℚ) = a := by
  unfold roundTF
  rw [Int.floor_intCast]
  norm_num

/-- C5: the scatter projection weights every point's value by
E(-d²/(2·1²)) where d² is the squared distance between the true
projected position and its rounding target, and scatter-adds the
weighted value at that target; consequently, with E = tf.exp (so
E 0 = 1), a single point lying exactly at an integer pixel position
contributes its entire value to that one pixel and every other pixel of
the zero-initialized image stays 0. -/
theorem C5_scatter_weight (E : ℚ → ℚ) (hE : E 0 = 1) :
    (∀ (x y v : ℚ) (q : ℤ × ℤ),
      scatterPoints E [((x, y), v)] q
        = if q = (roundTF x, roundTF y) then v * scatterWeight E (x, y) else 0)
    ∧ (∀ (a b : ℤ) (v : ℚ) (q : ℤ × ℤ),
      scatterPoints E [(((a : ℚ), (b : ℚ)), v)] q = if q = (a, b) then v else 0) := by
  have hsingle : ∀ (x y v : ℚ) (q : ℤ × ℤ),
      scatterPoints E [((x, y), v)] q
        = if q = (roundTF x, roundTF y) then v * scatterWeight E (x, y) else 0 := by
    intro x y v q
    simp only [scatterPoints, List.foldl]
    by_cases h : q = (roundTF x, roundTF y)
    · simp [h]
    · simp [h]
  refine ⟨hsingle, fun a b v q => ?_⟩
  rw [hsingle]
  have hw : scatterWeight E ((a : ℚ), (b : ℚ)) = 1 := by
    have hres : roundResidualSq ((a : ℚ), (b : ℚ)) = 0 := by
      simp [roundResidualSq, roundTF_intCast]
    simp [scatterWeight, hres, hE]
  rw [hw, mul_one, roundTF_intCast, roundTF_intCast]

/-- C5 witness: a concrete exp model with E 0 = 1 and a concrete point
(3, -2) with value 5: the whole value lands on pixel (3, -2) and a
neighboring pixel stays 0. -/
theorem C5_scatter_weight_witness :
    (fun z : ℚ => 1 + z) 0 = 1
    ∧ scatterPoints (fun z => 1 + z) [((((3 : ℤ) : ℚ), ((-2 : ℤ) : ℚ)), 5)] (3, -2) = 5
    ∧ scatterPoints (fun z => 1 + z) [((((3 : ℤ) : ℚ), ((-2 : ℤ) : ℚ)), 5)] (0, 0) = 0 := by
  have h := (C5_scatter_weight (fun z => 1 + z) (by norm_num)).2 3 (-2) 5
  exact ⟨by norm_num, by rw [h]; rfl, by rw [h]; rfl⟩

/-- Summing a list after dividing every entry by s divides the sum by s. -/
theorem sum_map_div (l : List ℚ) (s : ℚ) :
    (l.map (fun v => v / s)).sum = l.sum / s := by
  induction l with
  | nil => simp
  | cons a t ih => simp [ih, add_div]

/-- Any matrix divided entry-wise by its own nonzero total sums to 1. -/
theorem normalized_matSum (raw : List (List ℚ)) (h : matSum raw ≠ 0) :
    matSum (raw.map (fun row => row.map (fun v => v / matSum raw))) = 1 := by
  have e1 : matSum (raw.map (fun row => row.map (fun v => v / matSum raw)))
      = ((raw.map List.sum).map (fun v => v / matSum raw)).sum := by
    simp only [matSum, List.map_map]
    congr 1
    exact List.map_congr_left fun row _ => sum_map_div row (matSum raw)
  rw [e1, sum_map_div]
  exact div_self h

/-- The normalized Gaussian kernel sums to exactly 1 whenever the raw
kernel has nonzero sum. -/
theorem gaussKernel_matSum (cdf sq : ℚ → ℚ) (size : ℕ) (std : ℚ)
    (h : matSum (gaussKernelRaw cdf sq size std) ≠ 0) :
    matSum (gaussKernel cdf sq size std) = 1 :=
  normalized_matSum (gaussKernelRaw cdf sq size std) h

/-- The length of np.linspace(a, b, n) is n. -/
theorem linspace_length (a b : ℚ) (n : ℕ) : (linspace a b n).length = n := by
  unfold linspace
  split_ifs with h0 h1
  · simp [h0]
  · simp [h1]
  · rw [List.length_map, List.length_range]

/-- The i-th sample of np.linspace for two or more samples. -/
theorem linspace_get (a b : ℚ) (n : ℕ) (i : ℕ)
    (hi : i < (linspace a b n).length) (h2 : 2 ≤ n) :
    (linspace a b n).get ⟨i, hi⟩ = a + (i : ℚ) * (b - a) / ((n : ℚ) - 1) := by
  have h0 : n ≠ 0 := by omega
  have h1 : n ≠ 1 := by omega
  have hlin : linspace a b n
      = (List.range n).map (fun (j : ℕ) => a + (j : ℚ) * (b - a) / ((n : ℚ) - 1)) := by
    rw [linspace, if_neg h0, if_neg h1]
  revert hi
  rw [hlin]
  intro hi
  rw [List.get_eq_getElem, List.getElem_map, List.getElem_range]

/-- C8: create_blur_filters(num_filters, max_std, filter_size) builds
exactly num_filters kernels, the standard deviations are the linearly
spaced samples 0.1 + i * (max_std - 0.1) / (num_filters - 1) covering
[0.1, max_std], and every kernel whose raw Gaussian outer product has
nonzero sum is normalized to sum exactly 1 (so in particular within the
1e-5 tolerance). -/
theorem C8_blur_filter_bank (cdf sq : ℚ → ℚ) (n : ℕ) (max_std : ℚ) (size : ℕ) :
    (createBlurFilters cdf sq n max_std size).length = n
    ∧ (∀ i (hi : i < (linspace (1/10) max_std n).length), 2 ≤ n →
        (linspace (1/10) max_std n).get ⟨i, hi⟩
          = 1/10 + (i : ℚ) * (max_std - 1/10) / ((n : ℚ) - 1))
    ∧ (∀ std ∈ linspace (1/10) max_std n,
        matSum (gaussKernelRaw cdf sq size std) ≠ 0 →
          matSum (gaussKernel cdf sq size std) = 1
          ∧ |matSum (gaussKernel cdf sq size std) - 1| ≤ 1/100000)
    ∧ createBlurFilters cdf sq n max_std size
        = (linspace (1/10) max_std n).map (gaussKernel cdf sq size) := by
  refine ⟨?_, ?_, ?_, rfl⟩
  · unfold createBlurFilters
    rw [List.length_map, linspace_length]
  · intro i hi h2
    exact linspace_get (1/10) max_std n i hi h2
  · intro std _ h
    exact ⟨gaussKernel_matSum cdf sq size std h,
      by rw [gaussKernel_matSum cdf sq size std h]; norm_num⟩

/-- C8 witness: with identity stand-ins for the external cdf and sqrt,
two filters, max std 2 and size 3: the bank has two kernels, the second
std is 2, and the first kernel sums to exactly 1 (raw sum 9/25 is
nonzero). -/
theorem C8_blur_filter_bank_witness :
    (createBlurFilters id id 2 2 3).length = 2
    ∧ (linspace (1/10) 2 2).get ⟨1, by rw [linspace_length]; norm_num⟩
        = 1/10 + ((1 : ℕ) : ℚ) * (2 - 1/10) / ((2 : ℚ) - 1)
    ∧ matSum (gaussKernel id id 3 (1/10)) = 1 := by
  have h := C8_blur_filter_bank id id 2 2 3
  have hmem : (1/10 : ℚ) ∈ linspace (1/10) 2 2 := by
    have he : linspace (1/10) 2 2 = [1/10, 2] := by
      norm_num [linspace, List.range_succ]
    rw [he]; simp
  have hraw : matSum (gaussKernelRaw id id 3 (1/10)) ≠ 0 := by
    have he : matSum (gaussKernelRaw id id 3 (1/10)) = 9/25 := by
      norm_num [gaussKernelRaw, gaussKern1d, diffList, linspace, matSum, List.range_succ]
    rw [he]; norm_num
  exact ⟨h.1, h.2.1 1 (by rw [linspace_length]; norm_num) (by norm_num),
    (h.2.2.1 (1/10) hmem hraw).1⟩

/-- One winner-take-all step computes the element-wise minimum of the
running loss and the candidate loss. -/
theorem winnerStep_loss {B P : Type} (st c : CandBatch B P) (b : B) :
    (winnerStep st c).loss b = min (st.loss b) (c.loss b) := by
  rw [min_comm, min_def]
  rfl

/-- The loss kept by the winner-take-all fold is the foldl-min of the
candidate losses below the initial running loss. -/
theorem winnerFold_loss {B P : Type} (cands : List (CandBatch B P))
    (st : CandBatch B P) (b : B) :
    (cands.foldl winnerStep st).loss b
      = (cands.map (fun c => c.loss b)).foldl min (st.loss b) := by
  induction cands generalizing st with
  | nil => rfl
  | cons c rest ih =>
    rw [List.foldl_cons, List.map_cons, List.foldl_cons, ih, winnerStep_loss]

/-- A foldl of min is below the seed and below every list entry. -/
theorem foldlMin_le (l : List ℚ) (a : ℚ) :
    (∀ x ∈ l, l.foldl min a ≤ x) ∧ l.foldl min a ≤ a := by
  induction l generalizing a with
  | nil => exact ⟨by simp, le_refl a⟩
  | cons x xs ih =>
    simp only [List.foldl_cons]
    have h := ih (min a x)
    refine ⟨?_, le_trans h.2 (min_le_left a x)⟩
    intro y hy
    rcases List.mem_cons.mp hy with hxy | hxs
    · rw [hxy]; exact le_trans h.2 (min_le_right a x)
    · exact h.1 y hxs

/-- The winner-take-all fold either leaves the initial state untouched
(in which case every candidate loss strictly exceeds the seed) or keeps
the loss and payload of one of the candidates. -/
theorem winnerFold_payload {B P : Type} (cands : List (CandBatch B P))
    (st : CandBatch B P) (b : B) :
    ((cands.foldl winnerStep st).loss b = st.loss b
      ∧ (cands.foldl winnerStep st).payload b = st.payload b
      ∧ ∀ c ∈ cands, st.loss b < c.loss b)
    ∨ (∃ c ∈ cands, (cands.foldl winnerStep st).loss b = c.loss b
        ∧ (cands.foldl winnerStep st).payload b = c.payload b) := by
  induction cands generalizing st with
  | nil => exact Or.inl ⟨rfl, rfl, by simp⟩
  | cons c rest ih =>
    rw [List.foldl_cons]
    by_cases hm : c.loss b ≤ st.loss b
    · have hl : (winnerStep st c).loss b = c.loss b := by simp [winnerStep, hm]
      have hp : (winnerStep st c).payload b = c.payload b := by simp [winnerStep, hm]
      rcases ih (winnerStep st c) with ⟨h1, h2, _⟩ | ⟨c', hc', h1, h2⟩
      · exact Or.inr ⟨c, List.mem_cons_self c rest, h1.trans hl, h2.trans hp⟩
      · exact Or.inr ⟨c', List.mem_cons_of_mem c hc', h1, h2⟩
    · have hl : (winnerStep st c).loss b = st.loss b := by simp [winnerStep, hm]
      have hp : (winnerStep st c).payload b = st.payload b := by simp [winnerStep, hm]
      rcases ih (winnerStep st c) with ⟨h1, h2, h3⟩ | ⟨c', hc', h1, h2⟩
      · refine Or.inl ⟨h1.trans hl, h2.trans hp, ?_⟩
        intro c'' hc''
        rcases List.mem_cons.mp hc'' with rfl | hmem
        · exact not_le.mp hm
        · exact hl ▸ h3 c'' hmem
      · exact Or.inr ⟨c', List.mem_cons_of_mem c hc', h1, h2⟩

/-- Pointwise evaluation of the decode_images_with_loss reduce_min fold. -/
theorem decodeLoss_fold {B : Type} (losses : List (B → ℚ)) (f : B → ℚ) (b : B) :
    (losses.foldl (fun prev l => fun b => min (l b) (prev b)) f) b
      = (losses.map (fun l => l b)).foldl min (f b) := by
  induction losses generalizing f with
  | nil => rfl
  | cons l rest ih =>
    rw [List.foldl_cons, List.map_cons, List.foldl_cons, ih, min_comm (f b) (l b)]

/-- C1 (amended): whenever some candidate's loss for a batch element is
at most the 10000 initialization of the running minimum, the
winner-take-all selection of predict_step keeps, independently for that
element, a loss below every candidate loss together with the payload
(rotation, shift, image) of a candidate attaining it, and the
reduce_min fold of decode_images_with_loss produces exactly that
element-wise minimum — never an average over candidates.  (Without the
10000 bound the zero initialization survives; see the counterexample.) -/
theorem C1_winner_takes_min {B P : Type} (z : P) (cands : List (CandBatch B P)) (b : B)
    (h : ∃ c ∈ cands, c.loss b ≤ 10000) :
    (∀ c ∈ cands, (winnerSelect z cands).loss b ≤ c.loss b)
    ∧ (∃ c ∈ cands, (winnerSelect z cands).loss b = c.loss b
        ∧ (winnerSelect z cands).payload b = c.payload b)
    ∧ decodeLossMin (cands.map CandBatch.loss) b = (winnerSelect z cands).loss b := by
  obtain ⟨c0, hc0, hle0⟩ := h
  refine ⟨?_, ?_, ?_⟩
  · intro c hc
    rw [winnerSelect, winnerFold_loss]
    exact (foldlMin_le _ _).1 (c.loss b) (List.mem_map_of_mem _ hc)
  · rcases winnerFold_payload cands ⟨fun _ => 10000, fun _ => z⟩ b with ⟨_, _, h3⟩ | hex
    · exact absurd hle0 (not_le.mpr (h3 c0 hc0))
    · exact hex
  · rw [winnerSelect, winnerFold_loss, decodeLossMin, decodeLoss_fold, List.map_map]
    rfl

/-- C1 counterexample: a single candidate with loss 20000 > 10000 is the
global minimum over all (one) candidates, yet the selection keeps the
zero-initialized payload and the 10000 loss floor, and the
decode_images_with_loss fold yields 10000 rather than the per-candidate
minimum 20000 — the claim as stated fails. -/
theorem C1_winner_cex :
    (winnerSelect (0 : ℚ) cexCands).payload 0 = 0
    ∧ (∀ c ∈ cexCands, c.payload 0 = 1)
    ∧ (winnerSelect (0 : ℚ) cexCands).loss 0 = 10000
    ∧ (∀ c ∈ cexCands, c.loss 0 = 20000)
    ∧ decodeLossMin (cexCands.map CandBatch.loss) 0 = 10000 := by
  refine ⟨rfl, by decide, by decide, by decide, by decide⟩

/-- C1 witness: two candidates with losses 5 and 7 (both below 10000):
the kept loss is below both candidate losses, the kept payload belongs
to a candidate attaining it, and the decode loss equals it. -/
theorem C1_winner_takes_min_witness :
    (∀ c ∈ witCands, (winnerSelect (0 : ℚ) witCands).loss 0 ≤ c.loss 0)
    ∧ (∃ c ∈ witCands, (winnerSelect (0 : ℚ) witCands).loss 0 = c.loss 0
        ∧ (winnerSelect (0 : ℚ) witCands).payload 0 = c.payload 0)
    ∧ decodeLossMin (witCands.map CandBatch.loss) 0 = (winnerSelect (0 : ℚ) witCands).loss 0 :=
  C1_winner_takes_min 0 witCands 0 (by decide)

/-- A primitive root of unity is nonzero. -/
theorem prim_ne_zero {n : ℕ} {ω : ℚ} (hn : 0 < n) (hp : IsPrimRoot n ω) : ω ≠ 0 := by
  intro h
  have h1 := hp.1
  rw [h, zero_pow hn.ne'] at h1
  exact zero_ne_one h1

/-- The geometric sum of a nontrivial n-th root of unity vanishes. -/
theorem geom_zero {x : ℚ} {n : ℕ} (hx : x ≠ 1) (hxn : x ^ n = 1) :
    ∑ i ∈ Finset.range n, x ^ i = 0 := by
  have h := geom_sum_mul x n
  rw [hxn, sub_self] at h
  rcases mul_eq_zero.mp h with h0 | h0
  · exact h0
  · exact absurd (sub_eq_zero.mp h0) hx

/-- Orthogonality of root-of-unity powers: the sum of ζ^(d*k) over one
period is n for d = 0 and 0 for 0 < d < n. -/
theorem sum_pow_prim {n : ℕ} {ζ : ℚ} (hp : IsPrimRoot n ζ) (d : ℕ) (hd : d < n) :
    ∑ k : Fin n, ζ ^ (d * k.val) = if d = 0 then (n : ℚ) else 0 := by
  rw [Fin.sum_univ_eq_sum_range (fun k => ζ ^ (d * k)) n]
  by_cases hd0 : d = 0
  · simp [hd0]
  · rw [if_neg hd0]
    have hterm : ∀ k, ζ ^ (d * k) = (ζ ^ d) ^ k := fun k => pow_mul ζ d k
    rw [Finset.sum_congr rfl (fun k _ => hterm k)]
    refine geom_zero (hp.2 d hd (Nat.pos_of_ne_zero hd0)) ?_
    rw [← pow_mul, Nat.mul_comm, pow_mul, hp.1, one_pow]

/-- The inverse of a primitive n-th root of unity is one as well. -/
theorem prim_inv {n : ℕ} {ω : ℚ} (hp : IsPrimRoot n ω) : IsPrimRoot n ω⁻¹ := by
  refine ⟨?_, ?_⟩
  · rw [inv_pow, hp.1, inv_one]
  · intro d hd hd0 h
    rw [inv_pow, inv_eq_one] at h
    exact hp.2 d hd hd0 h

/-- The mixed kernel sum behind DFT inversion: ω^(a*k) * ω⁻¹^(b*k)
summed over a period is n exactly on the diagonal a = b. -/
theorem ker_sum (n : ℕ) (ω : ℚ) (hp : IsPrimRoot n ω) (hn : 0 < n)
    (a b : ℕ) (ha : a < n) (hb : b < n) :
    ∑ k : Fin n, ω ^ (a * k.val) * (ω⁻¹) ^ (b * k.val)
      = if a = b then (n : ℚ) else 0 := by
  have hω0 : ω ≠ 0 := prim_ne_zero hn hp
  rcases le_or_lt b a with hba | hab
  · have hterm : ∀ k : Fin n, ω ^ (a * k.val) * (ω⁻¹) ^ (b * k.val)
        = ω ^ ((a - b) * k.val) := by
      intro k
      have he : a * k.val = (a - b) * k.val + b * k.val := by
        rw [← Nat.add_mul]; congr 1; omega
      rw [he, pow_add, mul_assoc, ← mul_pow, mul_inv_cancel₀ hω0, one_pow, mul_one]
    rw [Finset.sum_congr rfl (fun k _ => hterm k)]
    rw [sum_pow_prim hp (a - b) (by omega)]
    by_cases h : a = b
    · simp [h]
    · rw [if_neg (by omega : ¬ a - b = 0), if_neg h]
  · have hterm : ∀ k : Fin n, ω ^ (a * k.val) * (ω⁻¹) ^ (b * k.val)
        = (ω⁻¹) ^ ((b - a) * k.val) := by
      intro k
      have he : b * k.val = (b - a) * k.val + a * k.val := by
        rw [← Nat.add_mul]; congr 1; omega
      rw [he, pow_add, mul_comm (ω ^ (a * k.val)), mul_assoc,
        mul_comm ((ω⁻¹) ^ (a * k.val)), ← mul_pow, mul_inv_cancel₀ hω0, one_pow, mul_one]
    rw [Finset.sum_congr rfl (fun k _ => hterm k)]
    rw [sum_pow_prim (prim_inv hp) (b - a) (by omega)]
    rw [if_neg (by omega : ¬ b - a = 0), if_neg (by omega : ¬ a = b)]

/-- The inverse DFT matrix times the DFT matrix is n times the identity. -/
theorem dftMat_inv_mul (n : ℕ) (ω : ℚ) (hn : 0 < n) (hp : IsPrimRoot n ω) :
    dftMat n ω⁻¹ * dftMat n ω = (n : ℚ) • (1 : Matrix (Fin n) (Fin n) ℚ) := by
  ext a b
  rw [Matrix.mul_apply]
  have hterm : ∀ k : Fin n, dftMat n ω⁻¹ a k * dftMat n ω k b
      = ω ^ (b.val * k.val) * (ω⁻¹) ^ (a.val * k.val) := by
    intro k
    simp only [dftMat, Matrix.of_apply]
    rw [Nat.mul_comm k.val b.val, mul_comm]
  rw [Finset.sum_congr rfl (fun k _ => hterm k)]
  rw [ker_sum n ω hp hn b.val a.val b.isLt a.isLt]
  simp only [Matrix.smul_apply, Matrix.one_apply, smul_eq_mul]
  by_cases h : a = b
  · simp [h]
  · rw [if_neg (fun hv => h (Fin.ext hv.symm)), if_neg h, mul_zero]

/-- The DFT matrix times its inverse matrix is n times the identity. -/
theorem dftMat_mul_inv (n : ℕ) (ω : ℚ) (hn : 0 < n) (hp : IsPrimRoot n ω) :
    dftMat n ω * dftMat n ω⁻¹ = (n : ℚ) • (1 : Matrix (Fin n) (Fin n) ℚ) := by
  have h := dftMat_inv_mul n ω⁻¹ hn (prim_inv hp)
  rw [inv_inv] at h
  exact h

/-- Inverse 2-D DFT undoes the forward 2-D DFT. -/
theorem idft2_dft2 (n : ℕ) (ω : ℚ) (hn : 0 < n) (hp : IsPrimRoot n ω)
    (f : Matrix (Fin n) (Fin n) ℚ) : idft2 n ω (dft2 n ω f) = f := by
  have hnQ : (n : ℚ) ≠ 0 := Nat.cast_ne_zero.mpr hn.ne'
  unfold idft2 dft2
  have key : dftMat n ω⁻¹ * (dftMat n ω * f * dftMat n ω) * dftMat n ω⁻¹
      = (dftMat n ω⁻¹ * dftMat n ω) * f * (dftMat n ω * dftMat n ω⁻¹) := by
    simp only [Matrix.mul_assoc]
  rw [key, dftMat_inv_mul n ω hn hp, dftMat_mul_inv n ω hn hp]
  simp only [Matrix.smul_mul, Matrix.mul_smul, Matrix.one_mul, Matrix.mul_one, smul_smul]
  rw [inv_mul_cancel₀ (mul_ne_zero hnQ hnQ), one_smul]

/-- Forward 2-D DFT undoes the inverse 2-D DFT. -/
theorem dft2_idft2 (n : ℕ) (ω : ℚ) (hn : 0 < n) (hp : IsPrimRoot n ω)
    (f : Matrix (Fin n) (Fin n) ℚ) : dft2 n ω (idft2 n ω f) = f := by
  have hnQ : (n : ℚ) ≠ 0 := Nat.cast_ne_zero.mpr hn.ne'
  unfold idft2 dft2
  rw [Matrix.mul_smul, Matrix.smul_mul]
  have key : dftMat n ω * (dftMat n ω⁻¹ * f * dftMat n ω⁻¹) * dftMat n ω
      = (dftMat n ω * dftMat n ω⁻¹) * f * (dftMat n ω⁻¹ * dftMat n ω) := by
    simp only [Matrix.mul_assoc]
  rw [key, dftMat_inv_mul n ω hn hp, dftMat_mul_inv n ω hn hp]
  simp only [Matrix.smul_mul, Matrix.mul_smul, Matrix.one_mul, Matrix.mul_one, smul_smul]
  rw [inv_mul_cancel₀ (mul_ne_zero hnQ hnQ), one_smul]

/-- Forward 2-D DFT commutes with scalar rescaling. -/
theorem dft2_smul (n : ℕ) (ω : ℚ) (c : ℚ) (f : Matrix (Fin n) (Fin n) ℚ) :
    dft2 n ω (c • f) = c • dft2 n ω f := by
  unfold dft2
  rw [Matrix.mul_smul, Matrix.smul_mul]

/-- Inverse 2-D DFT commutes with scalar rescaling. -/
theorem idft2_smul (n : ℕ) (ω : ℚ) (c : ℚ) (f : Matrix (Fin n) (Fin n) ℚ) :
    idft2 n ω (c • f) = c • idft2 n ω f := by
  unfold idft2
  rw [Matrix.mul_smul, Matrix.smul_mul, smul_smul, smul_smul, mul_comm]

/-- Cropping or padding to the same size is the identity. -/
theorem cropOrPad_same (n : ℕ) (x : Matrix (Fin n) (Fin n) ℚ) : cropOrPad n n x = x := by
  ext i j
  have hi := i.isLt
  have hj := j.isLt
  simp only [cropOrPad, Matrix.of_apply]
  rw [dif_pos (le_refl n), dif_pos (by omega)]
  congr 1 <;> exact Fin.ext (by simp)

/-- Central zero-padding followed by central cropping back is the
identity (the tensorflow floor-offset conventions agree). -/
theorem cropOrPad_crop_pad (s t : ℕ) (hst : s ≤ t) (x : Matrix (Fin s) (Fin s) ℚ) :
    cropOrPad t s (cropOrPad s t x) = x := by
  rcases eq_or_lt_of_le hst with rfl | hlt
  · rw [cropOrPad_same, cropOrPad_same]
  · ext i j
    have hi := i.isLt
    have hj := j.isLt
    simp only [cropOrPad, Matrix.of_apply]
    rw [dif_neg (by omega)]
    rw [dif_pos hst, dif_pos (by constructor; omega; constructor; omega; constructor; omega; omega)]
    congr 1 <;> exact Fin.ext (by simp)

/-- Crop-or-pad commutes with scalar rescaling. -/
theorem cropOrPad_smul (n m : ℕ) (c : ℚ) (x : Matrix (Fin n) (Fin n) ℚ) :
    cropOrPad n m (c • x) = c • cropOrPad n m x := by
  ext i j
  simp only [cropOrPad, Matrix.of_apply, Matrix.smul_apply, smul_eq_mul]
  split_ifs <;> simp

/-- Resizing an image to its own size is exactly the identity. -/
theorem resize_same (n : ℕ) (ω : ℚ) (hn : 0 < n) (hp : IsPrimRoot n ω)
    (img : Matrix (Fin n) (Fin n) ℚ) : resizeImageFourierM n n ω ω img = img := by
  have hnQ : (n : ℚ) ≠ 0 := Nat.cast_ne_zero.mpr hn.ne'
  unfold resizeImageFourierM
  rw [cropOrPad_same, idft2_dft2 n ω hn hp, div_self hnQ, one_mul, one_smul]

/-- Resizing up to t >= s and back down to s returns the input exactly:
the Fourier coefficients survive the zero-pad/crop round trip and the
two norm factors cancel. -/
theorem resize_up_down (s t : ℕ) (ωs ωt : ℚ) (hs : 0 < s) (hst : s ≤ t)
    (hps : IsPrimRoot s ωs) (hpt : IsPrimRoot t ωt) (img : Matrix (Fin s) (Fin s) ℚ) :
    resizeImageFourierM t s ωt ωs (resizeImageFourierM s t ωs ωt img) = img := by
  have ht : 0 < t := lt_of_lt_of_le hs hst
  have hsQ : (s : ℚ) ≠ 0 := Nat.cast_ne_zero.mpr hs.ne'
  have htQ : (t : ℚ) ≠ 0 := Nat.cast_ne_zero.mpr ht.ne'
  unfold resizeImageFourierM
  rw [dft2_smul, dft2_idft2 t ωt ht hpt, cropOrPad_smul, cropOrPad_crop_pad s t hst,
    idft2_smul, idft2_dft2 s ωs hs hps, smul_smul]
  have hc : (s : ℚ) / t * ((s : ℚ) / t) * ((t : ℚ) / s * ((t : ℚ) / s)) = 1 := by
    field_simp
  rw [hc, one_smul]

/-- The two resizeImageFourier normalization factors cancel exactly. -/
theorem norm_product (p s t : ℕ) (hp : 0 < p) (hs : 0 < s) (ht : 0 < t) :
    normFactor p s t * normFactor p t s = 1 := by
  have hpQ : (p : ℚ) ≠ 0 := Nat.cast_ne_zero.mpr hp.ne'
  have hsQ : (s : ℚ) ≠ 0 := Nat.cast_ne_zero.mpr hs.ne'
  have htQ : (t : ℚ) ≠ 0 := Nat.cast_ne_zero.mpr ht.ne'
  unfold normFactor
  push_cast
  field_simp

/-- The constant 1 is the primitive first root of unity. -/
theorem isPrim_one : IsPrimRoot 1 1 := by
  refine ⟨one_pow 1, ?_⟩
  intro d hd hd0
  omega

/-- Minus 1 is a primitive second root of unity over ℚ. -/
theorem isPrim_neg_one : IsPrimRoot 2 (-1) := by
  refine ⟨by norm_num, ?_⟩
  intro d hd hd0
  interval_cases d
  · norm_num

/-- C3 (amended): resizeImageFourier to the images' own size returns the
input exactly (hence within any floating tolerance); the two
normalization factors, each the squared ratio of output to input padded
sizes, multiply to exactly 1; and a round trip through an intermediate
size at least the original returns the input exactly, preserving total
image energy.  (A round trip through a smaller size crops Fourier
coefficients and does not preserve energy; see the counterexample.) -/
theorem C3_resize_fourier_roundtrip :
    (∀ (n : ℕ) (ω : ℚ) (img : Matrix (Fin n) (Fin n) ℚ), 0 < n → IsPrimRoot n ω →
        resizeImageFourierM n n ω ω img = img)
    ∧ (∀ p s t : ℕ, 0 < p → 0 < s → 0 < t → normFactor p s t * normFactor p t s = 1)
    ∧ (∀ (s t : ℕ) (ωs ωt : ℚ) (img : Matrix (Fin s) (Fin s) ℚ), 0 < s → s ≤ t →
        IsPrimRoot s ωs → IsPrimRoot t ωt →
        resizeImageFourierM t s ωt ωs (resizeImageFourierM s t ωs ωt img) = img
        ∧ imageEnergy s (resizeImageFourierM t s ωt ωs (resizeImageFourierM s t ωs ωt img))
            = imageEnergy s img) :=
  ⟨fun n ω img hn hp => resize_same n ω hn hp img,
   fun p s t hp hs ht => norm_product p s t hp hs ht,
   fun s t ωs ωt img hs hst hps hpt =>
     ⟨resize_up_down s t ωs ωt hs hst hps hpt img,
      by rw [resize_up_down s t ωs ωt hs hst hps hpt img]⟩⟩

/-- C3 witness: the same-size round trip at size 2, the norm-factor
cancellation at sizes 2 and 1, and the grow-then-shrink round trip
from size 1 through size 2, all at concrete inputs. -/
theorem C3_resize_fourier_roundtrip_witness :
    resizeImageFourierM 2 2 (-1) (-1) imgC3 = imgC3
    ∧ normFactor 1 2 1 * normFactor 1 1 2 = 1
    ∧ resizeImageFourierM 2 1 (-1) 1 (resizeImageFourierM 1 2 1 (-1) img1) = img1 :=
  ⟨C3_resize_fourier_roundtrip.1 2 (-1) imgC3 (by norm_num) isPrim_neg_one,
   C3_resize_fourier_roundtrip.2.1 1 2 1 (by norm_num) (by norm_num) (by norm_num),
   (C3_resize_fourier_roundtrip.2.2 1 2 1 (-1) img1 (by norm_num) (by norm_num)
     isPrim_one isPrim_neg_one).1⟩

/-- C3 counterexample: shrinking the 2 x 2 unit-pixel image to 1 x 1 and
resizing back multiplies the total energy by 1/4, although the two
normalization factors multiply to 1: a round trip through a smaller
size does not preserve total image energy. -/
theorem C3_resize_energy_cex :
    imageEnergy 2 (resizeImageFourierM 1 2 1 (-1) (resizeImageFourierM 2 1 (-1) 1 imgC3))
      = 1/4
    ∧ imageEnergy 2 imgC3 = 1
    ∧ (1/4 : ℚ) ≠ 1 := by
  have hcard : (Finset.filter (fun x : Fin 2 => x = 0) Finset.univ).card = 1 := by decide
  refine ⟨?_, ?_, by norm_num⟩
  · norm_num [imageEnergy, resizeImageFourierM, idft2, dft2, cropOrPad, dftMat, imgC3,
      Matrix.mul_apply, Fin.sum_univ_two, Fin.sum_univ_one, Matrix.smul_apply, Matrix.of_apply,
      hcard]
  · norm_num [imageEnergy, imgC3, Fin.sum_univ_two, Matrix.of_apply, hcard]

end FlexuSpec
